import Mathlib

/-!
# simreprap: the `heatpot` thermal peripheral (`src/heatpot.c`)

A shallow embedding of `heatpot.c`.

* C `float` values are modelled as exact rationals (`ℚ`).
* The value returned by `random()` is an explicit input of the timer callback.
* `avr_cycle_count_t` is `uint64_t`: a `Nat` reduced `% 2 ^ 64` where it is computed.
* Pointers are modelled as `Option` (`none` is `NULL`).
* An access outside an array (undefined behaviour in C) makes the operation return `none`.

The header `heatpot.h` is not part of the sources at hand; what `heatpot.c` uses of it is
collected in `heatpot_h` and every definition is parametrised by it.
-/

set_option linter.unusedVariables false

namespace Heatpot

/-! ## Data model -/

/-- What `heatpot.c` uses of the header `heatpot.h`: the number of slots of `p->tally`
(`ARRAY_SIZE(p->tally)`), the size of the buffer `p->name`, the constant
`HEATPOT_RESAMPLE_US`, and the `cost` member of the overlay `heatpot_data_t` as a function of
the 32 bit word `v` it shares its storage with. -/
structure heatpot_h where
  TALLY_SIZE : Nat
  NAME_SIZE : Nat
  HEATPOT_RESAMPLE_US : Nat
  data_cost : Nat → ℚ

/-- The signal lines of the peripheral (`IRQ_HEATPOT_*`, used as offsets from `p->irq`). -/
inductive heatpot_irq where
  | IRQ_HEATPOT_TALLY
  | IRQ_HEATPOT_TEMP_OUT
  deriving DecidableEq, Repr

/-- The part of the simulated machine `struct avr_t` that the peripheral reads: the clock
frequency in Hz (`uint32_t`) and the current cycle counter (`avr_cycle_count_t`). -/
structure avr_t where
  frequency : Nat
  cycle : Nat
  deriving DecidableEq, Repr

/-- The peripheral record `heatpot_t`. `tally i` is `p->tally[i].cost`. -/
structure heatpot_t (h : heatpot_h) where
  irq : Option Nat
  avr : Option avr_t
  name : String
  tally : Fin h.TALLY_SIZE → ℚ
  ambiant : ℚ
  current : ℚ
  cycle : Nat

/-- What one call of `heatpot_evaluate_timer` does: the record afterwards, the values handed
to `avr_raise_irq` in order (line, `uint32_t` value; `none` when the conversion of the
float argument to `uint32_t` is undefined), and the returned cycle count. -/
structure timer_result (h : heatpot_h) where
  p : heatpot_t h
  raised : List (heatpot_irq × Option Nat)
  ret : Nat

/-- What `heatpot_init` does: the record afterwards, the lines on which
`heatpot_tally_in_hook` was registered, and for each registration of
`heatpot_evaluate_timer` the delay in cycles after which the scheduler first calls it. -/
structure init_result (h : heatpot_h) where
  p : heatpot_t h
  notify : List heatpot_irq
  timers : List Nat

/-! ## Collaborators (libc, simavr) -/

/-- C conversion of a rational to an integer: the fractional part is discarded. -/
def trunc (x : ℚ) : Int := Int.tdiv x.num x.den

/-- Conversion of a `float` argument to `uint32_t`: truncation toward zero, defined when the
integral part is representable. -/
def float_to_uint32 (x : ℚ) : Option Nat :=
  if 0 ≤ trunc x ∧ trunc x < 2 ^ 32 then some (trunc x).toNat else none

/-- Modelled from the spec: the scheduler collaborator's `usecToTicks(machine, microseconds)`,
simavr's `avr_usec_to_cycles` (`sim_time.h`, not among the sources), converting microseconds to
cycles of the machine clock: `avr->frequency * (avr_cycle_count_t)usec / 1000000` with a
`uint32_t usec`. -/
def avr_usec_to_cycles (avr : avr_t) (usec : Nat) : Nat :=
  (avr.frequency * (usec % 2 ^ 32)) % 2 ^ 64 / 1000000

/-- Modelled from the spec: the scheduler collaborator's registration in microseconds, simavr's
`avr_cycle_timer_register_usec(avr, uint32_t when, timer, param)` (not among the sources): it
converts `when` with `avr_usec_to_cycles` and registers the timer that many cycles from now.
The result is the delay in cycles. -/
def avr_cycle_timer_register_usec (avr : avr_t) (when : Nat) : Nat :=
  avr_usec_to_cycles avr (when % 2 ^ 32)

/-! ## `heatpot.c` -/

/-- The loop `for (si = 0; si < ARRAY_SIZE(p->tally); si++) weight += p->tally[si].cost;`
started from `weight = 0.0`. -/
def tally_weight {h : heatpot_h} (p : heatpot_t h) : ℚ :=
  Fin.foldl h.TALLY_SIZE (fun weight si => weight + p.tally si) 0

/-- The perturbation `(float)((random() % 32) - 16) / 32.0` for the value `r` of `random()`. -/
def random_noise (r : Nat) : ℚ := (((r % 32 : Nat) : Int) - 16 : Int) / 32

/-- The body of `heatpot_evaluate_timer` for a given value of `noise`. -/
def heatpot_evaluate_timer_body {h : heatpot_h} (p : heatpot_t h) (noise : ℚ) (when : Nat) :
    timer_result h :=
  let weight := tally_weight p
  let delta := p.current - p.ambiant
  let delta := delta + noise
  let cost := ((delta / 2) + noise) * -weight
  let cost := if delta < 0 then (-delta / 10) else (if weight > 0 then 1 / 10 else -(1 / 10))
  let p := { p with current := p.current + cost }
  { p := p
    raised := [(heatpot_irq.IRQ_HEATPOT_TEMP_OUT, float_to_uint32 (p.current * 256))]
    ret := (when + p.cycle) % 2 ^ 64 }

/-- The timer callback `heatpot_evaluate_timer(avr, when, param)`, `r` being the value that
`random()` returns. -/
def heatpot_evaluate_timer {h : heatpot_h} (p : heatpot_t h) (r : Nat) (when : Nat) :
    timer_result h :=
  heatpot_evaluate_timer_body p (random_noise r) when

/-- The update `heatpot_tally(p, sid, cost)`: `p->tally[sid].cost = cost`. The parameter `sid`
is a `uint8_t`; a `sid` outside the table is undefined behaviour. -/
def heatpot_tally {h : heatpot_h} (p : heatpot_t h) (sid : Nat) (cost : ℚ) :
    Option (heatpot_t h) :=
  if hs : sid < h.TALLY_SIZE then
    some { p with tally := Function.update p.tally ⟨sid, hs⟩ cost }
  else none

/-- Modelled from the spec: the `sid` member of the overlay `heatpot_data_t` (declared in
`heatpot.h`, not among the sources), "lower 8 bits select the source slot". -/
def data_sid (v : Nat) : Nat := v % 256

/-- The listener `heatpot_tally_in_hook(irq, value, param)` of the tally line. -/
def heatpot_tally_in_hook {h : heatpot_h} (p : heatpot_t h) (value : Nat) :
    Option (heatpot_t h) :=
  let v := value % 2 ^ 32
  heatpot_tally p (data_sid v) (h.data_cost v)

/-- The record after `memset(p, 0, sizeof( *p))`. -/
def heatpot_zero (h : heatpot_h) : heatpot_t h :=
  { irq := none, avr := none, name := "", tally := fun _ => 0, ambiant := 0, current := 0,
    cycle := 0 }

/-- The set-up `heatpot_init(avr, p, name, ambiant)`; `irqs` is the handle that
`avr_alloc_irq` returns. A `name` that does not fit `p->name` with its terminator makes
`strcpy` undefined. -/
def heatpot_init {h : heatpot_h} (avr : avr_t) (_p : heatpot_t h) (name : String) (ambiant : ℚ)
    (irqs : Nat) : Option (init_result h) :=
  let p := heatpot_zero h
  let p := { p with avr := some avr }
  if name.length < h.NAME_SIZE then
    let p := { p with name := name }
    let p := { p with irq := some irqs }
    let notify := [heatpot_irq.IRQ_HEATPOT_TALLY]
    let p := { p with cycle := avr_usec_to_cycles avr h.HEATPOT_RESAMPLE_US }
    let timers := [avr_cycle_timer_register_usec avr p.cycle]
    let p := { p with ambiant := ambiant, current := ambiant }
    some { p := p, notify := notify, timers := timers }
  else none

/-- A finite sequence of calls `heatpot_tally(p, sid, cost)`, in order. -/
def heatpot_tally_seq {h : heatpot_h} (p : heatpot_t h) : List (Nat × ℚ) → Option (heatpot_t h)
  | [] => some p
  | c :: rest => (heatpot_tally p c.1 c.2).bind fun q => heatpot_tally_seq q rest

/-- One period of the peripheral: the timer callback fires with `r` drawn from `random()`,
then the tally updates `calls` arrive before the callback fires again. -/
structure tick where
  r : Nat
  calls : List (Nat × ℚ)

/-- The scheduler contract for a timer callback ("callback returns the next absolute tick at
which it wishes to be invoked again"): the callback is invoked at `when` and then again at
each time it returns, with tally updates in between. The result is the record after the
last period and the time at which the callback is invoked next. -/
def heatpot_run {h : heatpot_h} (p : heatpot_t h) (when : Nat) :
    List tick → Option (heatpot_t h × Nat)
  | [] => some (p, when)
  | t :: ts =>
    let res := heatpot_evaluate_timer p t.r when
    (heatpot_tally_seq res.p t.calls).bind fun q => heatpot_run q res.ret ts

/-- The recompute as the specification words it, without the discarded intermediate `cost`:
weight is the sum of all tally costs, `delta = current - ambient + noise`, the cost is
`-delta / 10` when `delta < 0` and otherwise `0.1` when `weight > 0` and `-0.1` when not,
`current += cost`, `current * 256` is raised on the temperature line and the next fire time
`now + resampleInterval` is returned as a 64 bit cycle count. -/
def heatpot_evaluate_timer_reference {h : heatpot_h} (p : heatpot_t h) (noise : ℚ)
    (when : Nat) : timer_result h :=
  let weight := ∑ i, p.tally i
  let delta := p.current - p.ambiant + noise
  let cost := if delta < 0 then -delta / 10 else if weight > 0 then 1 / 10 else -(1 / 10)
  let current := p.current + cost
  { p := { p with current := current }
    raised := [(heatpot_irq.IRQ_HEATPOT_TEMP_OUT, float_to_uint32 (current * 256))]
    ret := (when + p.cycle) % 2 ^ 64 }

/-- What can happen to an initialised peripheral: a direct call of `heatpot_tally`, a word
delivered on the tally line, or the timer callback firing at `when` with `r` drawn from
`random()`. -/
inductive event where
  | tally (sid : Nat) (cost : ℚ)
  | hook (value : Nat)
  | timer (r : Nat) (when : Nat)

/-- The record after one event. -/
def heatpot_step {h : heatpot_h} (p : heatpot_t h) : event → Option (heatpot_t h)
  | event.tally sid cost => heatpot_tally p sid cost
  | event.hook value => heatpot_tally_in_hook p value
  | event.timer r when => some (heatpot_evaluate_timer p r when).p

/-- The record after a finite interleaving of tally updates and recomputes, in order. -/
def heatpot_steps {h : heatpot_h} (p : heatpot_t h) : List event → Option (heatpot_t h)
  | [] => some p
  | e :: es => (heatpot_step p e).bind fun q => heatpot_steps q es

/-- The record after successive calls of the timer callback without tally updates in between;
each entry is the value drawn from `random()` and the invocation time. -/
def heatpot_recomputes {h : heatpot_h} (p : heatpot_t h) : List (Nat × Nat) → heatpot_t h
  | [] => p
  | d :: ds => heatpot_recomputes (heatpot_evaluate_timer p d.1 d.2).p ds

/-! ## Concrete inputs -/

/-- A header with four tally slots, a 32 byte name and a 100 ms resample interval. -/
def h4 : heatpot_h :=
  { TALLY_SIZE := 4, NAME_SIZE := 32, HEATPOT_RESAMPLE_US := 100000,
    data_cost := fun v => ((v / 256 : Nat) : ℚ) }

/-- A 16 MHz machine at cycle 0. -/
def avr16 : avr_t := { frequency := 16000000, cycle := 0 }

/-- A peripheral at ambient temperature 20 with no tallies. -/
def p20 : heatpot_t h4 :=
  { irq := some 0, avr := some avr16, name := "hotend", tally := fun _ => 0, ambiant := 20,
    current := 20, cycle := 1600000 }

/-- The peripheral `p20` with cost 5 in slot 1. -/
def p20_one : heatpot_t h4 :=
  { p20 with tally := fun i => if i = ⟨1, by decide⟩ then 5 else 0 }

/-- A peripheral cooler than ambient: `current = 10`, `ambiant = 20`, with tallies. -/
def p10 : heatpot_t h4 :=
  { p20 with current := 10, tally := fun i => if i = ⟨1, by decide⟩ then 5 else 0 }

/-- A machine clocked at 1 Hz. -/
def avr1 : avr_t := { frequency := 1, cycle := 0 }

/-- A peripheral one degree above ambient with cost 5 in slot 1. -/
def p21 : heatpot_t h4 :=
  { p20_one with current := 21 }

/-! ## Auxiliary lemmas -/

theorem foldl_add_eq_sum (n : Nat) (f : Fin n → ℚ) :
    Fin.foldl n (fun weight si => weight + f si) 0 = ∑ i, f i := by
  induction n with
  | zero => simp [Fin.foldl_zero]
  | succ n ih =>
    rw [Fin.foldl_succ_last, Fin.sum_univ_castSucc, ih]

theorem tally_weight_eq_sum {h : heatpot_h} (p : heatpot_t h) :
    tally_weight p = ∑ i, p.tally i :=
  foldl_add_eq_sum h.TALLY_SIZE p.tally

theorem heatpot_tally_eq {h : heatpot_h} (p : heatpot_t h) (sid : Nat) (cost : ℚ)
    (hs : sid < h.TALLY_SIZE) :
    heatpot_tally p sid cost = some { p with tally := Function.update p.tally ⟨sid, hs⟩ cost } := by
  simp [heatpot_tally, hs]

theorem heatpot_tally_seq_spec {h : heatpot_h} (calls : List (Nat × ℚ)) :
    ∀ p : heatpot_t h, (∀ c ∈ calls, c.1 < h.TALLY_SIZE) →
      ∃ q, heatpot_tally_seq p calls = some q ∧
        (∀ pre post sid cost, calls = pre ++ (sid, cost) :: post → (∀ d ∈ post, d.1 ≠ sid) →
          ∀ i : Fin h.TALLY_SIZE, i.val = sid → q.tally i = cost) ∧
        (∀ i : Fin h.TALLY_SIZE, (∀ d ∈ calls, d.1 ≠ i.val) → q.tally i = p.tally i) ∧
        q.current = p.current ∧ q.ambiant = p.ambiant ∧ q.cycle = p.cycle ∧ q.name = p.name ∧
        q.irq = p.irq ∧ q.avr = p.avr := by
  induction calls with
  | nil =>
    intro p _
    refine ⟨p, rfl, ?_, fun _ _ => rfl, rfl, rfl, rfl, rfl, rfl, rfl⟩
    intro pre post sid cost hc
    simp at hc
  | cons c rest ih =>
    intro p hin
    have hc : c.1 < h.TALLY_SIZE := hin c (List.mem_cons_self _ _)
    have hrest : ∀ d ∈ rest, d.1 < h.TALLY_SIZE := fun d hd => hin d (List.mem_cons_of_mem _ hd)
    obtain ⟨q, hq, hlast, hkeep, h1, h2, h3, h4, h5, h6⟩ :=
      ih { p with tally := Function.update p.tally ⟨c.1, hc⟩ c.2 } hrest
    refine ⟨q, ?_, ?_, ?_, h1, h2, h3, h4, h5, h6⟩
    · simp [heatpot_tally_seq, heatpot_tally_eq p c.1 c.2 hc, hq]
    · intro pre post sid cost hdec hpost i hi
      cases pre with
      | nil =>
        simp only [List.nil_append, List.cons.injEq] at hdec
        obtain ⟨hc1, hr⟩ := hdec
        subst hr
        have hk := hkeep i (fun d hd => by rw [hi]; exact hpost d hd)
        rw [hk]
        have hi1 : i = ⟨c.1, hc⟩ := Fin.ext (by simp [hi, hc1])
        have hc2 : c.2 = cost := by rw [hc1]
        show Function.update p.tally ⟨c.1, hc⟩ c.2 i = cost
        rw [hi1, Function.update_same, hc2]
      | cons c0 pre0 =>
        simp only [List.cons_append, List.cons.injEq] at hdec
        exact hlast pre0 post sid cost hdec.2 hpost i hi
    · intro i hno
      have hk := hkeep i (fun d hd => hno d (List.mem_cons_of_mem _ hd))
      rw [hk]
      have hne : i ≠ ⟨c.1, hc⟩ := by
        intro he
        exact hno c (List.mem_cons_self _ _) (by rw [he])
      simp [Function.update_noteq hne]

theorem heatpot_run_spec {h : heatpot_h} (ticks : List tick) :
    ∀ (p : heatpot_t h) (when : Nat), when < 2 ^ 64 →
      (∀ t ∈ ticks, ∀ c ∈ t.calls, c.1 < h.TALLY_SIZE) →
      ∃ q, heatpot_run p when ticks = some (q, (when + ticks.length * p.cycle) % 2 ^ 64) ∧
        q.cycle = p.cycle := by
  induction ticks with
  | nil =>
    intro p when hw _
    refine ⟨p, ?_, rfl⟩
    rw [List.length_nil, Nat.zero_mul, Nat.add_zero, Nat.mod_eq_of_lt hw]
    rfl
  | cons t ts ih =>
    intro p when _ hin
    have ht : ∀ c ∈ t.calls, c.1 < h.TALLY_SIZE := hin t (List.mem_cons_self _ _)
    have hts : ∀ u ∈ ts, ∀ c ∈ u.calls, c.1 < h.TALLY_SIZE :=
      fun u hu => hin u (List.mem_cons_of_mem _ hu)
    obtain ⟨q1, hq1, _, _, _, _, hcyc, _⟩ :=
      heatpot_tally_seq_spec t.calls (heatpot_evaluate_timer p t.r when).p ht
    have hcyc1 : q1.cycle = p.cycle := hcyc
    have hret : (heatpot_evaluate_timer p t.r when).ret = (when + p.cycle) % 2 ^ 64 := rfl
    have hlt : (when + p.cycle) % 2 ^ 64 < 2 ^ 64 := Nat.mod_lt _ (by norm_num)
    obtain ⟨q, hq, hqc⟩ := ih q1 ((when + p.cycle) % 2 ^ 64) hlt hts
    refine ⟨q, ?_, hqc.trans hcyc1⟩
    rw [hcyc1, Nat.mod_add_mod] at hq
    have harith : when + p.cycle + ts.length * p.cycle = when + (ts.length + 1) * p.cycle := by
      ring
    rw [harith] at hq
    show (heatpot_tally_seq (heatpot_evaluate_timer p t.r when).p t.calls).bind
        (fun a => heatpot_run a (heatpot_evaluate_timer p t.r when).ret ts) = _
    rw [hq1, Option.some_bind, hret, hq, List.length_cons]

theorem trunc_of_nonneg (x : ℚ) (hx : 0 ≤ x) : trunc x = ⌊x⌋ := by
  rw [trunc, Rat.floor_def, Int.tdiv_eq_ediv (Rat.num_nonneg.mpr hx) (Int.ofNat_nonneg _)]

theorem float_to_uint32_of_range (x : ℚ) (h0 : 0 ≤ x) (h1 : x < 2 ^ 32) :
    ∃ v : Nat, float_to_uint32 x = some v ∧ (v : ℚ) ≤ x ∧ x < v + 1 ∧ v < 2 ^ 32 := by
  have hfl : 0 ≤ ⌊x⌋ := Int.floor_nonneg.mpr h0
  have hlt : ⌊x⌋ < 2 ^ 32 := by
    have : ⌊x⌋ < ((2 ^ 32 : Int)) := Int.floor_lt.mpr (by exact_mod_cast h1)
    exact this
  have hcast : ((⌊x⌋.toNat : Int)) = ⌊x⌋ := Int.toNat_of_nonneg hfl
  have hcastq : ((⌊x⌋.toNat : ℚ)) = (⌊x⌋ : ℚ) := by exact_mod_cast congrArg (Int.cast : Int → ℚ) hcast
  refine ⟨⌊x⌋.toNat, ?_, ?_, ?_, ?_⟩
  · rw [float_to_uint32, trunc_of_nonneg x h0, if_pos ⟨hfl, hlt⟩]
  · rw [hcastq]; exact Int.floor_le x
  · rw [hcastq]; exact Int.lt_floor_add_one x
  · have : ((⌊x⌋.toNat : Int)) < 2 ^ 32 := by rw [hcast]; exact hlt
    exact_mod_cast this

theorem heatpot_evaluate_timer_p20 :
    (heatpot_evaluate_timer_body p20 (random_noise 16) 0).p.current = 199 / 10 := by
  have hn : random_noise 16 = 0 := by norm_num [random_noise]
  rw [hn]
  simp [heatpot_evaluate_timer_body, tally_weight_eq_sum, p20]
  norm_num

theorem sum_update (n : Nat) (f : Fin n → ℚ) (i : Fin n) (c : ℚ) :
    ∑ x, Function.update f i c x = ∑ x, f x + (c - f i) := by
  rw [Finset.sum_update_of_mem (Finset.mem_univ i), Finset.sdiff_singleton_eq_erase,
    ← Finset.add_sum_erase Finset.univ f (Finset.mem_univ i)]
  ring

theorem avr16_usec_to_cycles (usec : Nat) (hu : usec < 2 ^ 32) :
    avr_usec_to_cycles avr16 usec = 16 * usec := by
  have h64 : 16000000 * usec < 2 ^ 64 := by
    have : 16000000 * usec < 16000000 * 2 ^ 32 := Nat.mul_lt_mul_of_pos_left hu (by norm_num)
    exact lt_trans this (by norm_num)
  show 16000000 * (usec % 2 ^ 32) % 2 ^ 64 / 1000000 = 16 * usec
  rw [Nat.mod_eq_of_lt hu, Nat.mod_eq_of_lt h64,
    show 16000000 * usec = 1000000 * (16 * usec) by ring]
  exact Nat.mul_div_cancel_left _ (by norm_num)

theorem heatpot_init_eq {h : heatpot_h} (avr : avr_t) (p : heatpot_t h) (name : String)
    (A : ℚ) (irqs : Nat) (hname : name.length < h.NAME_SIZE) :
    heatpot_init avr p name A irqs = some
      { p := { irq := some irqs, avr := some avr, name := name, tally := fun _ => 0,
               ambiant := A, current := A,
               cycle := avr_usec_to_cycles avr h.HEATPOT_RESAMPLE_US }
        notify := [heatpot_irq.IRQ_HEATPOT_TALLY]
        timers := [avr_cycle_timer_register_usec avr
          (avr_usec_to_cycles avr h.HEATPOT_RESAMPLE_US)] } := by
  simp only [heatpot_init, hname, if_true]
  rfl

theorem avr_usec_to_cycles_pos (avr : avr_t) (usec : Nat) (hf : avr.frequency < 2 ^ 32)
    (hu : usec < 2 ^ 32) (hp : 1000000 ≤ avr.frequency * usec) :
    0 < avr_usec_to_cycles avr usec := by
  have h64 : avr.frequency * usec < 2 ^ 64 := by
    have h1 : avr.frequency * usec ≤ 2 ^ 32 * 2 ^ 32 :=
      Nat.mul_le_mul (Nat.le_of_lt hf) (Nat.le_of_lt hu)
    have h2 : avr.frequency * usec ≠ 2 ^ 32 * 2 ^ 32 := by
      intro he
      have h3 : avr.frequency * usec < 2 ^ 32 * usec :=
        Nat.mul_lt_mul_of_pos_right hf (by
          rcases Nat.eq_zero_or_pos usec with h0 | h0
          · rw [h0] at hp; simp at hp
          · exact h0)
      have h4 : 2 ^ 32 * usec ≤ 2 ^ 32 * 2 ^ 32 := Nat.mul_le_mul_left _ (Nat.le_of_lt hu)
      omega
    have h5 : (2 : Nat) ^ 32 * 2 ^ 32 = 2 ^ 64 := by norm_num
    omega
  show 0 < avr.frequency * (usec % 2 ^ 32) % 2 ^ 64 / 1000000
  rw [Nat.mod_eq_of_lt hu, Nat.mod_eq_of_lt h64]
  exact Nat.div_pos hp (by norm_num)

theorem heatpot_body_eq_reference {h : heatpot_h} (p : heatpot_t h) (noise : ℚ) (when : Nat) :
    heatpot_evaluate_timer_body p noise when = heatpot_evaluate_timer_reference p noise when := by
  simp only [heatpot_evaluate_timer_body, heatpot_evaluate_timer_reference,
    tally_weight_eq_sum]

theorem random_noise_bounds (r : Nat) :
    ∃ k : Int, -16 ≤ k ∧ k ≤ 15 ∧ random_noise r = (k : ℚ) / 32 ∧
      -(1 / 2) ≤ random_noise r ∧ random_noise r ≤ 15 / 32 := by
  have hlt : r % 32 < 32 := Nat.mod_lt r (by norm_num)
  have hk0 : (-16 : Int) ≤ ((r % 32 : Nat) : Int) - 16 := by omega
  have hk1 : ((r % 32 : Nat) : Int) - 16 ≤ 15 := by omega
  have hq0 : (-16 : ℚ) ≤ ((((r % 32 : Nat) : Int) - 16 : Int) : ℚ) := by exact_mod_cast hk0
  have hq1 : ((((r % 32 : Nat) : Int) - 16 : Int) : ℚ) ≤ 15 := by exact_mod_cast hk1
  refine ⟨((r % 32 : Nat) : Int) - 16, hk0, hk1, rfl, ?_, ?_⟩
  · show -(1 / 2) ≤ ((((r % 32 : Nat) : Int) - 16 : Int) : ℚ) / 32
    rw [le_div_iff₀ (by norm_num)]
    linarith
  · show ((((r % 32 : Nat) : Int) - 16 : Int) : ℚ) / 32 ≤ 15 / 32
    rw [div_le_div_iff_of_pos_right (by norm_num)]
    exact hq1

theorem heatpot_body_current {h : heatpot_h} (p : heatpot_t h) (noise : ℚ) (when : Nat) :
    (heatpot_evaluate_timer_body p noise when).p.current =
      p.current + (if p.current - p.ambiant + noise < 0 then
        -(p.current - p.ambiant + noise) / 10
        else if 0 < ∑ i, p.tally i then 1 / 10 else -(1 / 10)) := by
  rw [heatpot_body_eq_reference]
  rfl

theorem heatpot_body_cool {h : heatpot_h} (p : heatpot_t h) (noise : ℚ) (when : Nat)
    (hd : p.current - p.ambiant + noise < 0) :
    (heatpot_evaluate_timer_body p noise when).p.current =
      p.current + -(p.current - p.ambiant + noise) / 10 := by
  rw [heatpot_body_current, if_pos hd]

theorem heatpot_body_warm {h : heatpot_h} (p : heatpot_t h) (noise : ℚ) (when : Nat)
    (hd : 0 ≤ p.current - p.ambiant + noise) :
    (heatpot_evaluate_timer_body p noise when).p.current =
      p.current + (if 0 < ∑ i, p.tally i then 1 / 10 else -(1 / 10)) := by
  rw [heatpot_body_current, if_neg (not_lt.mpr hd)]

theorem heatpot_body_drop {h : heatpot_h} (p : heatpot_t h) (noise : ℚ) (when : Nat) :
    p.current - 1 / 10 ≤ (heatpot_evaluate_timer_body p noise when).p.current := by
  rw [heatpot_body_current]
  split_ifs with h1 h2
  · linarith
  · linarith
  · linarith

theorem heatpot_body_floor {h : heatpot_h} (p : heatpot_t h) (noise : ℚ) (when : Nat)
    (hhi : noise ≤ 15 / 32) (hinv : -(15 / 32 + 1 / 10) ≤ p.current - p.ambiant) :
    -(15 / 32 + 1 / 10) ≤ (heatpot_evaluate_timer_body p noise when).p.current -
      (heatpot_evaluate_timer_body p noise when).p.ambiant := by
  show -(15 / 32 + 1 / 10) ≤ (heatpot_evaluate_timer_body p noise when).p.current - p.ambiant
  rcases lt_or_le (p.current - p.ambiant + noise) 0 with hd | hd
  · rw [heatpot_body_cool p noise when hd]
    linarith
  · have hdrop := heatpot_body_drop p noise when
    linarith

theorem heatpot_tally_keeps {h : heatpot_h} (p q : heatpot_t h) (sid : Nat) (cost : ℚ)
    (hq : heatpot_tally p sid cost = some q) :
    q.current = p.current ∧ q.ambiant = p.ambiant := by
  by_cases hs : sid < h.TALLY_SIZE
  · rw [heatpot_tally_eq p sid cost hs] at hq
    cases hq
    exact ⟨rfl, rfl⟩
  · simp [heatpot_tally, hs] at hq

theorem heatpot_steps_floor {h : heatpot_h} (evs : List event) :
    ∀ p q : heatpot_t h, heatpot_steps p evs = some q →
      -(15 / 32 + 1 / 10) ≤ p.current - p.ambiant →
      q.ambiant = p.ambiant ∧ -(15 / 32 + 1 / 10) ≤ q.current - q.ambiant := by
  induction evs with
  | nil =>
    intro p q hq hinv
    cases hq
    exact ⟨rfl, hinv⟩
  | cons e es ih =>
    intro p q hq hinv
    cases e with
    | tally sid cost =>
      cases h1 : heatpot_tally p sid cost with
      | none => simp [heatpot_steps, heatpot_step, h1] at hq
      | some p1 =>
        obtain ⟨hc, ha⟩ := heatpot_tally_keeps p p1 sid cost h1
        have hq1 : heatpot_steps p1 es = some q := by
          simpa [heatpot_steps, heatpot_step, h1] using hq
        obtain ⟨hqa, hqi⟩ := ih p1 q hq1 (by rw [hc, ha]; exact hinv)
        exact ⟨hqa.trans ha, hqi⟩
    | hook value =>
      cases h1 : heatpot_tally_in_hook p value with
      | none => simp [heatpot_steps, heatpot_step, h1] at hq
      | some p1 =>
        obtain ⟨hc, ha⟩ := heatpot_tally_keeps p p1 _ _ h1
        have hq1 : heatpot_steps p1 es = some q := by
          simpa [heatpot_steps, heatpot_step, h1] using hq
        obtain ⟨hqa, hqi⟩ := ih p1 q hq1 (by rw [hc, ha]; exact hinv)
        exact ⟨hqa.trans ha, hqi⟩
    | timer r when =>
      have hq1 : heatpot_steps (heatpot_evaluate_timer p r when).p es = some q := by
        simpa [heatpot_steps, heatpot_step] using hq
      obtain ⟨_, _, _, _, _, hhi⟩ := random_noise_bounds r
      obtain ⟨hqa, hqi⟩ := ih _ q hq1 (heatpot_body_floor p (random_noise r) when hhi hinv)
      exact ⟨hqa, hqi⟩

theorem heatpot_recomputes_cool {h : heatpot_h} (draws : List (Nat × Nat)) :
    ∀ p : heatpot_t h, p.current < p.ambiant → (∀ d ∈ draws, random_noise d.1 = 0) →
      (heatpot_recomputes p draws).ambiant = p.ambiant ∧
      (heatpot_recomputes p draws).ambiant - (heatpot_recomputes p draws).current =
        (9 / 10) ^ draws.length * (p.ambiant - p.current) := by
  induction draws with
  | nil =>
    intro p _ _
    exact ⟨rfl, by simp [heatpot_recomputes]⟩
  | cons d ds ih =>
    intro p hlt hz
    have hn : random_noise d.1 = 0 := hz d (List.mem_cons_self _ _)
    have hd : p.current - p.ambiant + random_noise d.1 < 0 := by rw [hn]; linarith
    have hcur : (heatpot_evaluate_timer p d.1 d.2).p.current =
        p.current + -(p.current - p.ambiant + random_noise d.1) / 10 :=
      heatpot_body_cool p (random_noise d.1) d.2 hd
    have hamb : (heatpot_evaluate_timer p d.1 d.2).p.ambiant = p.ambiant := rfl
    have hlt1 : (heatpot_evaluate_timer p d.1 d.2).p.current <
        (heatpot_evaluate_timer p d.1 d.2).p.ambiant := by
      rw [hcur, hamb, hn]; linarith
    obtain ⟨ha, hgap⟩ := ih (heatpot_evaluate_timer p d.1 d.2).p hlt1
      (fun e he => hz e (List.mem_cons_of_mem _ he))
    refine ⟨ha.trans hamb, ?_⟩
    show (heatpot_recomputes (heatpot_evaluate_timer p d.1 d.2).p ds).ambiant -
      (heatpot_recomputes (heatpot_evaluate_timer p d.1 d.2).p ds).current = _
    rw [hgap, hcur, hamb, hn, List.length_cons, pow_succ]
    ring

theorem heatpot_recomputes_warm {h : heatpot_h} (draws : List (Nat × Nat)) :
    ∀ p : heatpot_t h, 1 / 2 ≤ p.current - p.ambiant → 0 < ∑ i, p.tally i →
      (heatpot_recomputes p draws).current = p.current + draws.length * (1 / 10) := by
  induction draws with
  | nil =>
    intro p _ _
    simp [heatpot_recomputes]
  | cons d ds ih =>
    intro p hd hw
    obtain ⟨_, _, _, _, hlo, _⟩ := random_noise_bounds d.1
    have hdel : 0 ≤ p.current - p.ambiant + random_noise d.1 := by linarith
    have hcur : (heatpot_evaluate_timer p d.1 d.2).p.current = p.current + 1 / 10 := by
      have := heatpot_body_warm p (random_noise d.1) d.2 hdel
      rw [if_pos hw] at this
      exact this
    have hamb : (heatpot_evaluate_timer p d.1 d.2).p.ambiant = p.ambiant := rfl
    have htal : (heatpot_evaluate_timer p d.1 d.2).p.tally = p.tally := rfl
    have hd1 : 1 / 2 ≤ (heatpot_evaluate_timer p d.1 d.2).p.current -
        (heatpot_evaluate_timer p d.1 d.2).p.ambiant := by
      rw [hcur, hamb]; linarith
    have hrec := ih (heatpot_evaluate_timer p d.1 d.2).p hd1 (by rw [htal]; exact hw)
    show (heatpot_recomputes (heatpot_evaluate_timer p d.1 d.2).p ds).current = _
    rw [hrec, hcur, List.length_cons]
    push_cast
    ring

/-! ## Theorems -/

/-- C1: `heatpot_tally` is last-write-wins. Every finite sequence of calls with in-range ids
runs to completion, and afterwards each slot for which the sequence has a call holds the cost
of the last call made for it, whatever came before and whatever the slot held, each slot
without a call holds what it held, and the weight that the next recompute computes is the sum
over all slots of these final values. -/
theorem heatpot_tally_last_write_wins {h : heatpot_h} (p : heatpot_t h)
    (calls : List (Nat × ℚ)) (hin : ∀ c ∈ calls, c.1 < h.TALLY_SIZE) :
    ∃ q, heatpot_tally_seq p calls = some q ∧
      (∀ pre post sid cost, calls = pre ++ (sid, cost) :: post → (∀ d ∈ post, d.1 ≠ sid) →
        ∀ i : Fin h.TALLY_SIZE, i.val = sid → q.tally i = cost) ∧
      (∀ i : Fin h.TALLY_SIZE, (∀ d ∈ calls, d.1 ≠ i.val) → q.tally i = p.tally i) ∧
      tally_weight q = ∑ i, q.tally i := by
  obtain ⟨q, hq, hlast, hkeep, _⟩ := heatpot_tally_seq_spec calls p hin
  exact ⟨q, hq, hlast, hkeep, tally_weight_eq_sum q⟩

theorem heatpot_tally_last_write_wins_witness :
    (∀ c ∈ [((1 : Nat), (3 : ℚ)), (2, 7), (1, 5)], c.1 < h4.TALLY_SIZE) ∧
      ∃ q, heatpot_tally_seq p20 [(1, 3), (2, 7), (1, 5)] = some q ∧
        q.tally ⟨1, by decide⟩ = 5 ∧ q.tally ⟨2, by decide⟩ = 7 ∧
        q.tally ⟨3, by decide⟩ = p20.tally ⟨3, by decide⟩ ∧
        tally_weight q = ∑ i, q.tally i := by
  have hin : ∀ c ∈ [((1 : Nat), (3 : ℚ)), (2, 7), (1, 5)], c.1 < h4.TALLY_SIZE := by
    simp [h4]
  obtain ⟨q, hq, hlast, hkeep, hw⟩ :=
    heatpot_tally_last_write_wins p20 [(1, 3), (2, 7), (1, 5)] hin
  refine ⟨hin, q, hq, ?_, ?_, ?_, hw⟩
  · exact hlast [(1, 3), (2, 7)] [] 1 5 rfl (by simp) ⟨1, by decide⟩ rfl
  · exact hlast [(1, 3)] [(1, 5)] 2 7 rfl (by simp) ⟨2, by decide⟩ rfl
  · exact hkeep ⟨3, by decide⟩ (by simp)

/-- C2: cool branch of the recompute. Whenever `delta = current - ambiant + noise` is
negative, the callback sets `current` to `current + (-delta / 10)`, and it does so for every
content of the tally table. -/
theorem heatpot_evaluate_timer_cool {h : heatpot_h} (p : heatpot_t h) (noise : ℚ) (when : Nat)
    (hd : p.current - p.ambiant + noise < 0) :
    (heatpot_evaluate_timer_body p noise when).p.current =
        p.current + (-(p.current - p.ambiant + noise) / 10) ∧
      ∀ tally : Fin h.TALLY_SIZE → ℚ,
        (heatpot_evaluate_timer_body ({ p with tally := tally } : heatpot_t h) noise
          when).p.current =
        p.current + (-(p.current - p.ambiant + noise) / 10) := by
  constructor
  · simp [heatpot_evaluate_timer_body, hd]
  · intro tally
    simp [heatpot_evaluate_timer_body, hd]

theorem heatpot_evaluate_timer_cool_witness :
    p10.current - p10.ambiant + random_noise 16 < 0 ∧
      random_noise 16 = 0 ∧ (heatpot_evaluate_timer p10 16 0).p.current = 11 := by
  have hn : random_noise 16 = 0 := by norm_num [random_noise]
  have hd : p10.current - p10.ambiant + random_noise 16 < 0 := by
    rw [hn]; norm_num [p10, p20]
  refine ⟨hd, hn, ?_⟩
  have hc := (heatpot_evaluate_timer_cool p10 (random_noise 16) 0 hd).1
  rw [heatpot_evaluate_timer, hc, hn]
  norm_num [p10, p20]

/-- C3: warm branch of the recompute. Whenever `delta = current - ambiant + noise` is not
negative, the callback sets `current` to `current + 0.1` when the weight, the sum of all tally
costs, is positive, and to `current - 0.1` when the weight is zero or negative. -/
theorem heatpot_evaluate_timer_warm {h : heatpot_h} (p : heatpot_t h) (noise : ℚ) (when : Nat)
    (hd : 0 ≤ p.current - p.ambiant + noise) :
    (0 < ∑ i, p.tally i →
        (heatpot_evaluate_timer_body p noise when).p.current = p.current + 1 / 10) ∧
      (∑ i, p.tally i ≤ 0 →
        (heatpot_evaluate_timer_body p noise when).p.current = p.current - 1 / 10) := by
  have hnd : ¬ (p.current - p.ambiant + noise < 0) := not_lt.mpr hd
  constructor
  · intro hw
    simp [heatpot_evaluate_timer_body, hnd, tally_weight_eq_sum, hw]
  · intro hw
    have hnw : ¬ (0 < ∑ i, p.tally i) := not_lt.mpr hw
    simp [heatpot_evaluate_timer_body, hnd, tally_weight_eq_sum, hnw]
    ring

theorem heatpot_evaluate_timer_warm_witness :
    (0 ≤ p20.current - p20.ambiant + random_noise 16 ∧ ∑ i, p20.tally i ≤ 0 ∧
        (heatpot_evaluate_timer p20 16 0).p.current = 199 / 10) ∧
      (0 ≤ p20_one.current - p20_one.ambiant + random_noise 16 ∧ 0 < ∑ i, p20_one.tally i ∧
        (heatpot_evaluate_timer p20_one 16 0).p.current = 201 / 10) := by
  have hn : random_noise 16 = 0 := by norm_num [random_noise]
  have hd0 : 0 ≤ p20.current - p20.ambiant + random_noise 16 := by
    rw [hn]; norm_num [p20]
  have hd1 : 0 ≤ p20_one.current - p20_one.ambiant + random_noise 16 := by
    rw [hn]; norm_num [p20_one, p20]
  have hw0 : ∑ i, p20.tally i ≤ 0 := by simp [p20]
  have hw1 : 0 < ∑ i, p20_one.tally i := by simp [p20_one]
  refine ⟨⟨hd0, hw0, ?_⟩, ⟨hd1, hw1, ?_⟩⟩
  · rw [heatpot_evaluate_timer, (heatpot_evaluate_timer_warm p20 _ 0 hd0).2 hw0]
    norm_num [p20]
  · rw [heatpot_evaluate_timer, (heatpot_evaluate_timer_warm p20_one _ 0 hd1).1 hw1]
    norm_num [p20_one, p20]

/-- C4: periodicity. The callback returns `when + p->cycle` in 64 bit cycle-count arithmetic
and leaves `p->cycle` as it was, for every value drawn from `random()`. Hence, when the
callback is invoked at `t0` and then again at each time it returns, with any in-range tally
updates in between, the invocation that follows `k` periods happens at `t0 + k * cycle` in
64 bit arithmetic, which is `t0 + k * cycle` itself as long as that fits 64 bits. -/
theorem heatpot_evaluate_timer_periodic {h : heatpot_h} (p : heatpot_t h) (t0 : Nat)
    (ticks : List tick) (ht0 : t0 < 2 ^ 64)
    (hin : ∀ t ∈ ticks, ∀ c ∈ t.calls, c.1 < h.TALLY_SIZE) :
    (∀ r when, (heatpot_evaluate_timer p r when).ret = (when + p.cycle) % 2 ^ 64 ∧
        (heatpot_evaluate_timer p r when).p.cycle = p.cycle) ∧
      ∃ q, heatpot_run p t0 ticks = some (q, (t0 + ticks.length * p.cycle) % 2 ^ 64) ∧
        q.cycle = p.cycle ∧
        (t0 + ticks.length * p.cycle < 2 ^ 64 →
          heatpot_run p t0 ticks = some (q, t0 + ticks.length * p.cycle)) := by
  refine ⟨fun r when => ⟨rfl, rfl⟩, ?_⟩
  obtain ⟨q, hq, hqc⟩ := heatpot_run_spec ticks p t0 ht0 hin
  refine ⟨q, hq, hqc, fun hlt => ?_⟩
  rw [hq, Nat.mod_eq_of_lt hlt]

theorem heatpot_evaluate_timer_periodic_witness :
    (0 < 2 ^ 64 ∧
        ∀ t ∈ [tick.mk 16 [(1, 5)], tick.mk 3 [], tick.mk 31 [(0, 2), (1, 0)]],
          ∀ c ∈ t.calls, c.1 < h4.TALLY_SIZE) ∧
      ∃ q, heatpot_run p20 0 [tick.mk 16 [(1, 5)], tick.mk 3 [], tick.mk 31 [(0, 2), (1, 0)]] =
        some (q, 4800000) := by
  have hin : ∀ t ∈ [tick.mk 16 [(1, 5)], tick.mk 3 [], tick.mk 31 [(0, 2), (1, 0)]],
      ∀ c ∈ t.calls, c.1 < h4.TALLY_SIZE := by
    simp only [h4]
    decide
  obtain ⟨_, q, _, _, hq⟩ := heatpot_evaluate_timer_periodic p20 0 _ (by norm_num) hin
  exact ⟨⟨by norm_num, hin⟩, q, hq (by norm_num [p20])⟩

/-- C5: post-state of `heatpot_init`. For every prior content of the record, every name that
fits the buffer and every ambient value `A`, the call completes and leaves `ambiant = A`,
`current = A`, every tally cost 0 (so weight 0), `cycle` the conversion of
`HEATPOT_RESAMPLE_US` to cycles, and the given name; the outcome is the same for every prior
content of the record. -/
theorem heatpot_init_post {h : heatpot_h} (avr : avr_t) (p : heatpot_t h) (name : String)
    (A : ℚ) (irqs : Nat) (hname : name.length < h.NAME_SIZE) :
    ∃ res, heatpot_init avr p name A irqs = some res ∧
      res.p.ambiant = A ∧ res.p.current = A ∧ (∀ i, res.p.tally i = 0) ∧
      tally_weight res.p = 0 ∧
      res.p.cycle = avr_usec_to_cycles avr h.HEATPOT_RESAMPLE_US ∧
      res.p.name = name ∧ res.p.avr = some avr ∧ res.p.irq = some irqs ∧
      ∀ p0 : heatpot_t h, heatpot_init avr p0 name A irqs = some res := by
  refine ⟨_, by simp only [heatpot_init, hname, if_true]; rfl, rfl, rfl, fun _ => rfl, ?_, rfl,
    rfl, rfl, rfl, fun _ => by simp only [heatpot_init, hname, if_true]⟩
  rw [tally_weight_eq_sum]
  exact Finset.sum_eq_zero fun _ _ => rfl

theorem heatpot_init_post_witness :
    "hotend".length < h4.NAME_SIZE ∧
      ∃ res, heatpot_init avr16 p10 "hotend" 25 7 = some res ∧
        res.p.ambiant = 25 ∧ res.p.current = 25 ∧ tally_weight res.p = 0 ∧
        res.p.cycle = 1600000 := by
  have hname : "hotend".length < h4.NAME_SIZE := by decide
  obtain ⟨res, hres, ha, hc, _, hw, hcy, _⟩ := heatpot_init_post avr16 p10 "hotend" 25 7 hname
  refine ⟨hname, res, hres, ha, hc, hw, ?_⟩
  rw [hcy]
  norm_num [avr_usec_to_cycles, avr16, h4]

/-- C6: output value. Every call of the callback raises exactly one value, on
`IRQ_HEATPOT_TEMP_OUT`, computed from the new `current` times 256; when that product lies in
`[0, 2 ^ 32)` the value is its conversion to a 32 bit unsigned integer by truncation, the
integer `v` with `v ≤ current * 256 < v + 1`. -/
theorem heatpot_evaluate_timer_raises {h : heatpot_h} (p : heatpot_t h) (noise : ℚ)
    (when : Nat) :
    (heatpot_evaluate_timer_body p noise when).raised =
        [(heatpot_irq.IRQ_HEATPOT_TEMP_OUT,
          float_to_uint32 ((heatpot_evaluate_timer_body p noise when).p.current * 256))] ∧
      (0 ≤ (heatpot_evaluate_timer_body p noise when).p.current * 256 →
        (heatpot_evaluate_timer_body p noise when).p.current * 256 < 2 ^ 32 →
        ∃ v : Nat,
          (heatpot_evaluate_timer_body p noise when).raised =
            [(heatpot_irq.IRQ_HEATPOT_TEMP_OUT, some v)] ∧
          (v : ℚ) ≤ (heatpot_evaluate_timer_body p noise when).p.current * 256 ∧
          (heatpot_evaluate_timer_body p noise when).p.current * 256 < v + 1 ∧
          v < 2 ^ 32) := by
  refine ⟨rfl, fun h0 h1 => ?_⟩
  obtain ⟨v, hv, hle, hlt, hb⟩ := float_to_uint32_of_range _ h0 h1
  refine ⟨v, ?_, hle, hlt, hb⟩
  show [(heatpot_irq.IRQ_HEATPOT_TEMP_OUT,
    float_to_uint32 ((heatpot_evaluate_timer_body p noise when).p.current * 256))] = _
  rw [hv]

theorem heatpot_evaluate_timer_raises_witness :
    (0 ≤ (heatpot_evaluate_timer_body p20 (random_noise 16) 0).p.current * 256 ∧
        (heatpot_evaluate_timer_body p20 (random_noise 16) 0).p.current * 256 < 2 ^ 32) ∧
      (heatpot_evaluate_timer p20 16 0).raised =
        [(heatpot_irq.IRQ_HEATPOT_TEMP_OUT, some 5094)] := by
  have h0 : 0 ≤ (heatpot_evaluate_timer_body p20 (random_noise 16) 0).p.current * 256 := by
    rw [heatpot_evaluate_timer_p20]; norm_num
  have h1 : (heatpot_evaluate_timer_body p20 (random_noise 16) 0).p.current * 256 < 2 ^ 32 := by
    rw [heatpot_evaluate_timer_p20]; norm_num
  obtain ⟨v, hv, hle, hlt, _⟩ :=
    (heatpot_evaluate_timer_raises p20 (random_noise 16) 0).2 h0 h1
  rw [heatpot_evaluate_timer_p20] at hle hlt
  have hle1 : (v : ℚ) < 5095 := lt_of_le_of_lt hle (by norm_num)
  have hlt1 : (5094 : ℚ) < v + 1 := lt_trans (by norm_num) hlt
  have hle2 : v < 5095 := by exact_mod_cast hle1
  have hlt2 : 5094 < v + 1 := by exact_mod_cast hlt1
  have hv5 : v = 5094 := by omega
  refine ⟨⟨h0, h1⟩, ?_⟩
  rw [heatpot_evaluate_timer, hv, hv5]

/-- C7: the weight is the exact sum of the costs of all slots, each slot counted once. A call
`heatpot_tally(p, id, c)` with an in-range id changes the weight by exactly `c` minus the
previous cost of the slot; in particular tallying 0 into a slot that holds 0 leaves the
weight unchanged. -/
theorem heatpot_tally_weight {h : heatpot_h} (p : heatpot_t h) (id : Nat) (c : ℚ)
    (hid : id < h.TALLY_SIZE) :
    tally_weight p = ∑ i, p.tally i ∧
      ∃ q, heatpot_tally p id c = some q ∧
        tally_weight q = tally_weight p + (c - p.tally ⟨id, hid⟩) ∧
        (p.tally ⟨id, hid⟩ = 0 → c = 0 → tally_weight q = tally_weight p) := by
  refine ⟨tally_weight_eq_sum p, _, heatpot_tally_eq p id c hid, ?_, ?_⟩
  · rw [tally_weight_eq_sum, tally_weight_eq_sum]
    exact sum_update _ p.tally ⟨id, hid⟩ c
  · intro hz hc
    rw [tally_weight_eq_sum, tally_weight_eq_sum]
    show ∑ x, Function.update p.tally ⟨id, hid⟩ c x = _
    rw [sum_update, hz, hc]
    ring

theorem heatpot_tally_weight_witness :
    2 < h4.TALLY_SIZE ∧
      tally_weight p20_one = 5 ∧
      (∃ q, heatpot_tally p20_one 2 0 = some q ∧ tally_weight q = 5) ∧
      ∃ q, heatpot_tally p20_one 1 3 = some q ∧ tally_weight q = 3 := by
  have h2 : 2 < h4.TALLY_SIZE := by decide
  have h1 : 1 < h4.TALLY_SIZE := by decide
  have hw : tally_weight p20_one = 5 := by
    rw [(heatpot_tally_weight p20_one 2 0 h2).1]
    simp [p20_one]
  obtain ⟨_, q2, hq2, _, hz⟩ := heatpot_tally_weight p20_one 2 0 h2
  obtain ⟨_, q1, hq1, hd, _⟩ := heatpot_tally_weight p20_one 1 3 h1
  refine ⟨h2, hw, ⟨q2, hq2, ?_⟩, ⟨q1, hq1, ?_⟩⟩
  · have h20 : p20_one.tally ⟨2, h2⟩ = 0 := by
      show (if (⟨2, h2⟩ : Fin h4.TALLY_SIZE) = ⟨1, h1⟩ then (5 : ℚ) else 0) = 0
      have hne : ¬ ((⟨2, h2⟩ : Fin h4.TALLY_SIZE) = ⟨1, h1⟩) := fun he =>
        absurd (Fin.mk.inj he) (by decide)
      rw [if_neg hne]
    rw [hz h20 rfl, hw]
  · have h15 : p20_one.tally ⟨1, h1⟩ = 5 := by
      show (if (⟨1, h1⟩ : Fin h4.TALLY_SIZE) = ⟨1, h1⟩ then (5 : ℚ) else 0) = 5
      rw [if_pos rfl]
    rw [hd, hw, h15]
    norm_num

/-- C8: frame of the tally update. For an in-range `sid`, `heatpot_tally(p, sid, cost)`
completes and leaves `current`, `ambiant`, `cycle`, `name`, the handles and every tally slot
other than `sid` as they were, and so does `heatpot_tally_in_hook` for every word whose slot
is in range: neither writes `current`. -/
theorem heatpot_tally_frame {h : heatpot_h} (p : heatpot_t h) (sid : Nat) (cost : ℚ)
    (hs : sid < h.TALLY_SIZE) :
    (∃ q, heatpot_tally p sid cost = some q ∧
        q.current = p.current ∧ q.ambiant = p.ambiant ∧ q.cycle = p.cycle ∧ q.name = p.name ∧
        q.irq = p.irq ∧ q.avr = p.avr ∧ ∀ i : Fin h.TALLY_SIZE, i.val ≠ sid →
          q.tally i = p.tally i) ∧
      ∀ value : Nat, data_sid (value % 2 ^ 32) = sid →
        ∃ q, heatpot_tally_in_hook p value = some q ∧
          q.current = p.current ∧ q.ambiant = p.ambiant ∧ q.cycle = p.cycle ∧
          q.name = p.name ∧ q.irq = p.irq ∧ q.avr = p.avr ∧
          ∀ i : Fin h.TALLY_SIZE, i.val ≠ sid → q.tally i = p.tally i := by
  have hframe : ∀ c : ℚ, ∃ q, heatpot_tally p sid c = some q ∧
      q.current = p.current ∧ q.ambiant = p.ambiant ∧ q.cycle = p.cycle ∧ q.name = p.name ∧
      q.irq = p.irq ∧ q.avr = p.avr ∧ ∀ i : Fin h.TALLY_SIZE, i.val ≠ sid →
        q.tally i = p.tally i := by
    intro c
    refine ⟨_, heatpot_tally_eq p sid c hs, rfl, rfl, rfl, rfl, rfl, rfl, ?_⟩
    intro i hi
    have hne : i ≠ ⟨sid, hs⟩ := fun he => hi (by rw [he])
    exact Function.update_noteq hne c p.tally
  refine ⟨hframe cost, ?_⟩
  intro value hv
  have hhook : heatpot_tally_in_hook p value =
      heatpot_tally p sid (h.data_cost (value % 2 ^ 32)) := by
    rw [heatpot_tally_in_hook, hv]
  rw [hhook]
  exact hframe _

theorem heatpot_tally_frame_witness :
    2 < h4.TALLY_SIZE ∧ data_sid (770 % 2 ^ 32) = 2 ∧
      (∃ q, heatpot_tally p20_one 2 9 = some q ∧ q.current = 20 ∧
        q.tally ⟨1, by decide⟩ = 5) ∧
      ∃ q, heatpot_tally_in_hook p20_one 770 = some q ∧ q.current = 20 ∧
        q.tally ⟨1, by decide⟩ = 5 := by
  have h2 : 2 < h4.TALLY_SIZE := by decide
  have hv : data_sid (770 % 2 ^ 32) = 2 := by decide
  have h1 : 1 < h4.TALLY_SIZE := by decide
  have h15 : p20_one.tally ⟨1, h1⟩ = 5 := by
    show (if (⟨1, h1⟩ : Fin h4.TALLY_SIZE) = ⟨1, h1⟩ then (5 : ℚ) else 0) = 5
    rw [if_pos rfl]
  obtain ⟨⟨q, hq, hc, _, _, _, _, _, ht⟩, hhook⟩ := heatpot_tally_frame p20_one 2 9 h2
  obtain ⟨q1, hq1, hc1, _, _, _, _, _, ht1⟩ := hhook 770 hv
  refine ⟨h2, hv, ⟨q, hq, hc, ?_⟩, ⟨q1, hq1, hc1, ?_⟩⟩
  · rw [ht ⟨1, h1⟩ (Nat.ne_of_lt (Nat.lt_succ_self 1)), h15]
  · rw [ht1 ⟨1, h1⟩ (Nat.ne_of_lt (Nat.lt_succ_self 1)), h15]

/-- C9: frame of the recompute. For every state, value of `random()` (and every noise) and
time, the callback changes only the field `current`: every tally slot, `ambiant`, `cycle`,
`name` and the handles are as before, so the weight seen by the next recompute is the same
unless a tally update intervenes. -/
theorem heatpot_evaluate_timer_frame {h : heatpot_h} (p : heatpot_t h) (r : Nat) (noise : ℚ)
    (when : Nat) :
    ((heatpot_evaluate_timer p r when).p =
        { p with current := (heatpot_evaluate_timer p r when).p.current } ∧
      (heatpot_evaluate_timer p r when).p.tally = p.tally ∧
      (heatpot_evaluate_timer p r when).p.ambiant = p.ambiant ∧
      (heatpot_evaluate_timer p r when).p.cycle = p.cycle ∧
      (heatpot_evaluate_timer p r when).p.name = p.name ∧
      tally_weight (heatpot_evaluate_timer p r when).p = tally_weight p) ∧
    ((heatpot_evaluate_timer_body p noise when).p =
        { p with current := (heatpot_evaluate_timer_body p noise when).p.current } ∧
      tally_weight (heatpot_evaluate_timer_body p noise when).p = tally_weight p) :=
  ⟨⟨rfl, rfl, rfl, rfl, rfl, rfl⟩, rfl, rfl⟩

/-- C10: first arming on a 16 MHz machine. `heatpot_init` stores the resample interval in
cycles, `p->cycle = 16 * HEATPOT_RESAMPLE_US`, and hands that cycle count to
`avr_cycle_timer_register_usec`, which converts it from microseconds once more: the callback
is first due `256 * HEATPOT_RESAMPLE_US` cycles after the call, sixteen periods instead of
one. -/
theorem heatpot_init_first_arming {h : heatpot_h} (p : heatpot_t h) (name : String) (A : ℚ)
    (irqs : Nat) (hname : name.length < h.NAME_SIZE) (hus0 : 0 < h.HEATPOT_RESAMPLE_US)
    (hus1 : h.HEATPOT_RESAMPLE_US < 2 ^ 28) :
    ∃ res, heatpot_init avr16 p name A irqs = some res ∧
      res.p.cycle = 16 * h.HEATPOT_RESAMPLE_US ∧
      res.timers = [256 * h.HEATPOT_RESAMPLE_US] ∧ res.timers ≠ [res.p.cycle] := by
  have hus2 : h.HEATPOT_RESAMPLE_US < 2 ^ 32 := lt_trans hus1 (by norm_num)
  have hus3 : 16 * h.HEATPOT_RESAMPLE_US < 2 ^ 32 := by
    norm_num at hus1 ⊢
    omega
  have hc : avr_usec_to_cycles avr16 h.HEATPOT_RESAMPLE_US = 16 * h.HEATPOT_RESAMPLE_US :=
    avr16_usec_to_cycles _ hus2
  have hd : avr_cycle_timer_register_usec avr16 (16 * h.HEATPOT_RESAMPLE_US) =
      256 * h.HEATPOT_RESAMPLE_US := by
    rw [avr_cycle_timer_register_usec, Nat.mod_eq_of_lt hus3, avr16_usec_to_cycles _ hus3]
    ring
  refine ⟨_, by simp only [heatpot_init, hname, if_true]; rfl, hc, ?_, ?_⟩
  · show [avr_cycle_timer_register_usec avr16
      (avr_usec_to_cycles avr16 h.HEATPOT_RESAMPLE_US)] = _
    rw [hc, hd]
  · show [avr_cycle_timer_register_usec avr16
      (avr_usec_to_cycles avr16 h.HEATPOT_RESAMPLE_US)] ≠
      [avr_usec_to_cycles avr16 h.HEATPOT_RESAMPLE_US]
    rw [hc, hd]
    intro he
    have := List.head_eq_of_cons_eq he
    omega

theorem heatpot_init_first_arming_witness :
    ("hotend".length < h4.NAME_SIZE ∧ 0 < h4.HEATPOT_RESAMPLE_US ∧
        h4.HEATPOT_RESAMPLE_US < 2 ^ 28) ∧
      ∃ res, heatpot_init avr16 p20 "hotend" 20 0 = some res ∧
        res.p.cycle = 1600000 ∧ res.timers = [25600000] := by
  have hname : "hotend".length < h4.NAME_SIZE := by decide
  have hus0 : 0 < h4.HEATPOT_RESAMPLE_US := by decide
  have hus1 : h4.HEATPOT_RESAMPLE_US < 2 ^ 28 := by decide
  obtain ⟨res, hres, hc, ht, _⟩ := heatpot_init_first_arming p20 "hotend" 20 0 hname hus0 hus1
  exact ⟨⟨hname, hus0, hus1⟩, res, hres, hc, ht⟩

/-- C11, as stated, fails: the callback does not always return a time after `when`. A
peripheral set up on a 16 MHz machine and invoked at `when = 2 ^ 64 - 1` returns 1599999,
the sum wrapped to 64 bits; a peripheral set up on a 1 Hz machine has `cycle = 0` and returns
`when` itself. -/
theorem heatpot_evaluate_timer_rearmed_counterexample :
    (∃ res : init_result h4, heatpot_init avr16 p20 "hotend" 20 0 = some res ∧
        (heatpot_evaluate_timer res.p 16 (2 ^ 64 - 1)).ret = 1599999 ∧
        ¬ (2 ^ 64 - 1 < (heatpot_evaluate_timer res.p 16 (2 ^ 64 - 1)).ret)) ∧
      ∃ res : init_result h4, heatpot_init avr1 p20 "hotend" 20 0 = some res ∧
        (heatpot_evaluate_timer res.p 16 5).ret = 5 ∧
        ¬ (5 < (heatpot_evaluate_timer res.p 16 5).ret) := by
  have hname : "hotend".length < h4.NAME_SIZE := by decide
  have hc16 : avr_usec_to_cycles avr16 h4.HEATPOT_RESAMPLE_US = 1600000 := by
    rw [avr16_usec_to_cycles _ (by decide)]
    rfl
  have hc1 : avr_usec_to_cycles avr1 h4.HEATPOT_RESAMPLE_US = 0 := by decide
  have hr16 : ∀ res : init_result h4, heatpot_init avr16 p20 "hotend" 20 0 = some res →
      (heatpot_evaluate_timer res.p 16 (2 ^ 64 - 1)).ret = 1599999 := by
    intro res hres
    rw [heatpot_init_eq avr16 p20 "hotend" 20 0 hname] at hres
    cases hres
    show (2 ^ 64 - 1 + avr_usec_to_cycles avr16 h4.HEATPOT_RESAMPLE_US) % 2 ^ 64 = 1599999
    rw [hc16]
    norm_num
  have hr1 : ∀ res : init_result h4, heatpot_init avr1 p20 "hotend" 20 0 = some res →
      (heatpot_evaluate_timer res.p 16 5).ret = 5 := by
    intro res hres
    rw [heatpot_init_eq avr1 p20 "hotend" 20 0 hname] at hres
    cases hres
    show (5 + avr_usec_to_cycles avr1 h4.HEATPOT_RESAMPLE_US) % 2 ^ 64 = 5
    rw [hc1]
    norm_num
  refine ⟨⟨_, heatpot_init_eq avr16 p20 "hotend" 20 0 hname, ?_, ?_⟩,
    ⟨_, heatpot_init_eq avr1 p20 "hotend" 20 0 hname, ?_, ?_⟩⟩
  · exact hr16 _ (heatpot_init_eq avr16 p20 "hotend" 20 0 hname)
  · rw [hr16 _ (heatpot_init_eq avr16 p20 "hotend" 20 0 hname)]
    norm_num
  · exact hr1 _ (heatpot_init_eq avr1 p20 "hotend" 20 0 hname)
  · rw [hr1 _ (heatpot_init_eq avr1 p20 "hotend" 20 0 hname)]
    norm_num

/-- C11, amended: for a peripheral set up by `heatpot_init` on a machine whose resample
interval is at least one cycle (`frequency * HEATPOT_RESAMPLE_US ≥ 1000000`, both 32 bit
values), and every invocation time `when` with `when + cycle < 2 ^ 64`, the callback returns
`when + cycle`, a time strictly after `when`; `heatpot_init` registers the callback once. -/
theorem heatpot_evaluate_timer_rearmed {h : heatpot_h} (avr : avr_t) (p0 : heatpot_t h)
    (name : String) (A : ℚ) (irqs : Nat) (res : init_result h) (r when : Nat)
    (hinit : heatpot_init avr p0 name A irqs = some res)
    (hf : avr.frequency < 2 ^ 32) (hus : h.HEATPOT_RESAMPLE_US < 2 ^ 32)
    (hpos : 1000000 ≤ avr.frequency * h.HEATPOT_RESAMPLE_US)
    (hw : when + res.p.cycle < 2 ^ 64) :
    (heatpot_evaluate_timer res.p r when).ret = when + res.p.cycle ∧
      when < (heatpot_evaluate_timer res.p r when).ret ∧
      0 < res.p.cycle ∧ res.timers.length = 1 := by
  have hname : name.length < h.NAME_SIZE := by
    by_contra hn
    simp [heatpot_init, hn] at hinit
  rw [heatpot_init_eq avr p0 name A irqs hname] at hinit
  cases hinit
  have hc : 0 < avr_usec_to_cycles avr h.HEATPOT_RESAMPLE_US :=
    avr_usec_to_cycles_pos avr _ hf hus hpos
  have hret : (when + avr_usec_to_cycles avr h.HEATPOT_RESAMPLE_US) % 2 ^ 64 =
      when + avr_usec_to_cycles avr h.HEATPOT_RESAMPLE_US := Nat.mod_eq_of_lt hw
  refine ⟨hret, ?_, hc, rfl⟩
  show when < (when + avr_usec_to_cycles avr h.HEATPOT_RESAMPLE_US) % 2 ^ 64
  rw [hret]
  omega

theorem heatpot_evaluate_timer_rearmed_witness :
    ∃ res : init_result h4, heatpot_init avr16 p20 "hotend" 20 0 = some res ∧
      (avr16.frequency < 2 ^ 32 ∧ h4.HEATPOT_RESAMPLE_US < 2 ^ 32 ∧
        1000000 ≤ avr16.frequency * h4.HEATPOT_RESAMPLE_US ∧ 7 + res.p.cycle < 2 ^ 64) ∧
      (heatpot_evaluate_timer res.p 16 7).ret = 1600007 := by
  have hname : "hotend".length < h4.NAME_SIZE := by decide
  have hc16 : avr_usec_to_cycles avr16 h4.HEATPOT_RESAMPLE_US = 1600000 := by
    rw [avr16_usec_to_cycles _ (by decide)]
    rfl
  have hw : 7 + avr_usec_to_cycles avr16 h4.HEATPOT_RESAMPLE_US < 2 ^ 64 := by
    rw [hc16]; norm_num
  have hf : avr16.frequency < 2 ^ 32 := by decide
  have hus : h4.HEATPOT_RESAMPLE_US < 2 ^ 32 := by decide
  have hpos : 1000000 ≤ avr16.frequency * h4.HEATPOT_RESAMPLE_US := by decide
  refine ⟨_, heatpot_init_eq avr16 p20 "hotend" 20 0 hname, ⟨hf, hus, hpos, hw⟩, ?_⟩
  rw [(heatpot_evaluate_timer_rearmed avr16 p20 "hotend" 20 0 _ 16 7
    (heatpot_init_eq avr16 p20 "hotend" 20 0 hname) hf hus hpos hw).1]
  show 7 + avr_usec_to_cycles avr16 h4.HEATPOT_RESAMPLE_US = 1600007
  rw [hc16]

/-- C12: decoding of the tally line. For every 32 bit word `v`, `heatpot_tally_in_hook` is the
single call `heatpot_tally(p, sid, cost)` with `sid = v mod 256` and `cost` the cost member of
the same word; it completes exactly when `v mod 256` is below the capacity, and then it writes
that cost into that slot. -/
theorem heatpot_tally_in_hook_decodes {h : heatpot_h} (p : heatpot_t h) (v : Nat)
    (hv : v < 2 ^ 32) :
    heatpot_tally_in_hook p v = heatpot_tally p (v % 256) (h.data_cost v) ∧
      ((∃ q, heatpot_tally_in_hook p v = some q) ↔ v % 256 < h.TALLY_SIZE) ∧
      ∀ hs : v % 256 < h.TALLY_SIZE, heatpot_tally_in_hook p v =
        some { p with tally := Function.update p.tally ⟨v % 256, hs⟩ (h.data_cost v) } := by
  have hhook : heatpot_tally_in_hook p v = heatpot_tally p (v % 256) (h.data_cost v) := by
    rw [heatpot_tally_in_hook, Nat.mod_eq_of_lt hv, data_sid]
  refine ⟨hhook, ?_, ?_⟩
  · rw [hhook]
    constructor
    · rintro ⟨q, hq⟩
      by_contra hn
      simp [heatpot_tally, hn] at hq
    · intro hs
      exact ⟨_, heatpot_tally_eq p _ _ hs⟩
  · intro hs
    rw [hhook, heatpot_tally_eq p _ _ hs]

theorem heatpot_tally_in_hook_decodes_witness :
    (770 < 2 ^ 32 ∧ 260 < 2 ^ 32) ∧
      (∃ q, heatpot_tally_in_hook p20 770 = some q ∧ q.tally ⟨2, by decide⟩ = 3) ∧
      heatpot_tally_in_hook p20 260 = none := by
  have h770 : 770 < 2 ^ 32 := by norm_num
  have h260 : 260 < 2 ^ 32 := by norm_num
  have hs : 770 % 256 < h4.TALLY_SIZE := by decide
  refine ⟨⟨h770, h260⟩, ⟨_, (heatpot_tally_in_hook_decodes p20 770 h770).2.2 hs, ?_⟩, ?_⟩
  · have h2 : 2 < h4.TALLY_SIZE := by decide
    show Function.update p20.tally ⟨770 % 256, hs⟩ (h4.data_cost 770) ⟨2, h2⟩ = 3
    have hi : (⟨2, h2⟩ : Fin h4.TALLY_SIZE) = ⟨770 % 256, hs⟩ := Fin.ext rfl
    rw [hi, Function.update_same]
    show (((770 / 256 : Nat)) : ℚ) = 3
    norm_num
  · rw [(heatpot_tally_in_hook_decodes p20 260 h260).1]
    have hn : ¬ (260 % 256 < h4.TALLY_SIZE) := by decide
    simp [heatpot_tally, hn]

/-- C13: the intermediate `cost = ((delta/2) + noise) * -weight` is dead. The callback equals
the reference recompute without it on every state, noise and time (record, raised value and
return value). Hence only the sign of the weight matters: two tally tables whose sums are both
positive, or both not positive, give the same new `current`, raised value and return value. -/
theorem heatpot_evaluate_timer_dead_cost {h : heatpot_h} (p : heatpot_t h) (noise : ℚ)
    (r when : Nat) :
    heatpot_evaluate_timer_body p noise when = heatpot_evaluate_timer_reference p noise when ∧
      heatpot_evaluate_timer p r when =
        heatpot_evaluate_timer_reference p (random_noise r) when ∧
      ∀ t1 t2 : Fin h.TALLY_SIZE → ℚ,
        ((0 < ∑ i, t1 i ∧ 0 < ∑ i, t2 i) ∨ (∑ i, t1 i ≤ 0 ∧ ∑ i, t2 i ≤ 0)) →
        (heatpot_evaluate_timer_body ({ p with tally := t1 } : heatpot_t h) noise
            when).p.current =
          (heatpot_evaluate_timer_body ({ p with tally := t2 } : heatpot_t h) noise
            when).p.current ∧
        (heatpot_evaluate_timer_body ({ p with tally := t1 } : heatpot_t h) noise
            when).raised =
          (heatpot_evaluate_timer_body ({ p with tally := t2 } : heatpot_t h) noise
            when).raised ∧
        (heatpot_evaluate_timer_body ({ p with tally := t1 } : heatpot_t h) noise when).ret =
          (heatpot_evaluate_timer_body ({ p with tally := t2 } : heatpot_t h) noise when).ret := by
  refine ⟨heatpot_body_eq_reference p noise when,
    heatpot_body_eq_reference p (random_noise r) when, ?_⟩
  intro t1 t2 hsign
  have hiff : (0 < ∑ i, t1 i) ↔ (0 < ∑ i, t2 i) := by
    rcases hsign with ⟨h1, h2⟩ | ⟨h1, h2⟩
    · exact ⟨fun _ => h2, fun _ => h1⟩
    · exact ⟨fun hp => absurd hp (not_lt.mpr h1), fun hp => absurd hp (not_lt.mpr h2)⟩
  simp only [heatpot_body_eq_reference, heatpot_evaluate_timer_reference, gt_iff_lt, hiff,
    and_self]

theorem heatpot_evaluate_timer_dead_cost_witness :
    ((0 < ∑ i, p20_one.tally i ∧ 0 < ∑ i : Fin h4.TALLY_SIZE, (7 : ℚ)) ∨
        (∑ i, p20_one.tally i ≤ 0 ∧ ∑ i : Fin h4.TALLY_SIZE, (7 : ℚ) ≤ 0)) ∧
      (heatpot_evaluate_timer_body p20_one 0 0).p.current =
        (heatpot_evaluate_timer_body ({ p20 with tally := fun _ => 7 } : heatpot_t h4) 0
          0).p.current := by
  have hs : (0 < ∑ i, p20_one.tally i ∧ 0 < ∑ i : Fin h4.TALLY_SIZE, (7 : ℚ)) ∨
      (∑ i, p20_one.tally i ≤ 0 ∧ ∑ i : Fin h4.TALLY_SIZE, (7 : ℚ) ≤ 0) := by
    left
    constructor
    · simp [p20_one]
    · simp [h4]
  exact ⟨hs, ((heatpot_evaluate_timer_dead_cost p20 0 0 0).2.2 p20_one.tally (fun _ => 7) hs).1⟩

/-- C14: range of the noise. For every value `r` of `random()`, the perturbation is `k / 32`
for an integer `k` with `-16 ≤ k ≤ 15`, so `-0.5 ≤ noise < 0.5`; each of these 32 values is
attained (by `r = k + 16`), the lower bound `-0.5` is reached at `r = 0`, and `+0.5` is
never reached. -/
theorem random_noise_range (r : Nat) :
    (∃ k : Int, -16 ≤ k ∧ k ≤ 15 ∧ random_noise r = (k : ℚ) / 32) ∧
      -(1 / 2) ≤ random_noise r ∧ random_noise r < 1 / 2 ∧ random_noise r ≠ 1 / 2 ∧
      (∀ j : Fin 32, random_noise j.val = ((j.val : ℚ) - 16) / 32) ∧
      random_noise 0 = -(1 / 2) ∧ random_noise 31 = 15 / 32 := by
  obtain ⟨k, hk0, hk1, hk, hlo, hhi⟩ := random_noise_bounds r
  have hlt : random_noise r < 1 / 2 := lt_of_le_of_lt hhi (by norm_num)
  refine ⟨⟨k, hk0, hk1, hk⟩, hlo, hlt, ne_of_lt hlt, ?_, ?_, ?_⟩
  · intro j
    have hj : j.val % 32 = j.val := Nat.mod_eq_of_lt j.isLt
    simp only [random_noise, hj]
    push_cast
    rfl
  · norm_num [random_noise]
  · norm_num [random_noise]

/-- C15: pull-up toward ambient without overshoot. Whenever the noise-adjusted
`delta = current - ambiant + noise` is negative, the recompute strictly increases `current`
and the noise-adjusted deficit becomes `0.9 * delta`. With noise 0 and `current < ambiant` the
new value lies strictly between the old one and `ambiant`, and after any number of such
recomputes the gap to `ambiant` is `0.9 ^ n` times the initial gap: `current` approaches
`ambiant` from below without reaching it. -/
theorem heatpot_evaluate_timer_pull_up {h : heatpot_h} (p : heatpot_t h) (noise : ℚ)
    (when : Nat) :
    (p.current - p.ambiant + noise < 0 →
        p.current < (heatpot_evaluate_timer_body p noise when).p.current ∧
        (heatpot_evaluate_timer_body p noise when).p.current - p.ambiant + noise =
          9 / 10 * (p.current - p.ambiant + noise)) ∧
      (p.current < p.ambiant →
        p.current < (heatpot_evaluate_timer_body p 0 when).p.current ∧
        (heatpot_evaluate_timer_body p 0 when).p.current < p.ambiant) ∧
      (p.current < p.ambiant → ∀ draws : List (Nat × Nat),
        (∀ d ∈ draws, random_noise d.1 = 0) →
        p.current ≤ (heatpot_recomputes p draws).current ∧
        (heatpot_recomputes p draws).current < p.ambiant ∧
        p.ambiant - (heatpot_recomputes p draws).current =
          (9 / 10) ^ draws.length * (p.ambiant - p.current)) := by
  refine ⟨fun hd => ?_, fun hlt => ?_, fun hlt draws hz => ?_⟩
  · rw [heatpot_body_cool p noise when hd]
    constructor
    · linarith
    · ring
  · have hd : p.current - p.ambiant + 0 < 0 := by linarith
    rw [heatpot_body_cool p 0 when hd]
    constructor
    · linarith
    · linarith
  · obtain ⟨ha, hgap⟩ := heatpot_recomputes_cool draws p hlt hz
    rw [ha] at hgap
    have hpos : 0 < p.ambiant - p.current := by linarith
    have hpow0 : (0 : ℚ) < (9 / 10) ^ draws.length := pow_pos (by norm_num) _
    have hpow1 : ((9 : ℚ) / 10) ^ draws.length ≤ 1 :=
      pow_le_one₀ (by norm_num) (by norm_num)
    have hmul0 : 0 < (9 / 10 : ℚ) ^ draws.length * (p.ambiant - p.current) :=
      mul_pos hpow0 hpos
    have hmul1 : (9 / 10 : ℚ) ^ draws.length * (p.ambiant - p.current) ≤
        1 * (p.ambiant - p.current) :=
      mul_le_mul_of_nonneg_right hpow1 (le_of_lt hpos)
    refine ⟨?_, ?_, hgap⟩
    · linarith
    · linarith

theorem heatpot_evaluate_timer_pull_up_witness :
    (p10.current - p10.ambiant + 0 < 0 ∧ p10.current < p10.ambiant ∧
        ∀ d ∈ [((16 : Nat), (0 : Nat)), (48, 1600000)], random_noise d.1 = 0) ∧
      (heatpot_evaluate_timer_body p10 0 0).p.current - 20 + 0 = -9 ∧
      20 - (heatpot_recomputes p10 [(16, 0), (48, 1600000)]).current = 81 / 10 := by
  have hd : p10.current - p10.ambiant + 0 < 0 := by norm_num [p10, p20]
  have hlt : p10.current < p10.ambiant := by norm_num [p10, p20]
  have hz : ∀ d ∈ [((16 : Nat), (0 : Nat)), (48, 1600000)], random_noise d.1 = 0 := by
    intro d hmem
    simp only [List.mem_cons, List.mem_singleton, List.not_mem_nil, or_false] at hmem
    rcases hmem with rfl | rfl <;> norm_num [random_noise]
  obtain ⟨h1, _, h3⟩ := heatpot_evaluate_timer_pull_up p10 0 0
  refine ⟨⟨hd, hlt, hz⟩, ?_, ?_⟩
  · have := (h1 hd).2
    have ha : p10.ambiant = 20 := rfl
    have hc : p10.current = 10 := rfl
    rw [ha, hc] at this
    rw [this]
    norm_num
  · have := (h3 hlt _ hz).2.2
    have ha : p10.ambiant = 20 := rfl
    have hc : p10.current = 10 := rfl
    rw [ha, hc] at this
    rw [this]
    norm_num

/-- C16: floor invariant. For every tally table and every noise in the range the code draws
from (`-16/32 .. 15/32`), if `current - ambiant ≥ -(15/32 + 1/10)` before the recompute then
the same holds after it. Since `heatpot_init` sets `current = ambiant`, in every state reached
from it by any interleaving of tally updates and recomputes the temperature is at least
`ambiant - 0.56875`. -/
theorem heatpot_floor_invariant {h : heatpot_h} (p : heatpot_t h) (noise : ℚ) (r when : Nat) :
    (-(1 / 2) ≤ noise → noise ≤ 15 / 32 → -(15 / 32 + 1 / 10) ≤ p.current - p.ambiant →
        -(15 / 32 + 1 / 10) ≤ (heatpot_evaluate_timer_body p noise when).p.current -
          (heatpot_evaluate_timer_body p noise when).p.ambiant) ∧
      (-(15 / 32 + 1 / 10) ≤ p.current - p.ambiant →
        -(15 / 32 + 1 / 10) ≤ (heatpot_evaluate_timer p r when).p.current -
          (heatpot_evaluate_timer p r when).p.ambiant) ∧
      ∀ (avr : avr_t) (name : String) (A : ℚ) (irqs : Nat) (res : init_result h)
        (evs : List event) (q : heatpot_t h),
        heatpot_init avr p name A irqs = some res → heatpot_steps res.p evs = some q →
        q.ambiant = A ∧ A - 91 / 160 ≤ q.current := by
  refine ⟨fun _ hhi hinv => heatpot_body_floor p noise when hhi hinv, fun hinv => ?_, ?_⟩
  · obtain ⟨_, _, _, _, _, hhi⟩ := random_noise_bounds r
    exact heatpot_body_floor p (random_noise r) when hhi hinv
  · intro avr name A irqs res evs q hinit hsteps
    have hname : name.length < h.NAME_SIZE := by
      by_contra hn
      simp [heatpot_init, hn] at hinit
    rw [heatpot_init_eq avr p name A irqs hname] at hinit
    cases hinit
    obtain ⟨ha, hi⟩ := heatpot_steps_floor evs _ q hsteps (by
      show -(15 / 32 + 1 / 10) ≤ A - A
      norm_num)
    have ha1 : q.ambiant = A := ha
    refine ⟨ha1, ?_⟩
    rw [ha1] at hi
    linarith

theorem heatpot_floor_invariant_witness :
    ∃ (res : init_result h4) (q : heatpot_t h4),
      heatpot_init avr16 p10 "hotend" 20 0 = some res ∧
      heatpot_steps res.p [event.timer 0 0, event.tally 1 5, event.hook 770,
        event.timer 31 1600000] = some q ∧
      q.ambiant = 20 ∧ 20 - 91 / 160 ≤ q.current := by
  have hname : "hotend".length < h4.NAME_SIZE := by decide
  have hinit := heatpot_init_eq avr16 p10 "hotend" 20 0 hname
  refine ⟨_, _, hinit, rfl, ?_⟩
  exact (heatpot_floor_invariant p10 0 0 0).2.2 avr16 "hotend" 20 0 _
    [event.timer 0 0, event.tally 1 5, event.hook 770, event.timer 31 1600000] _ hinit rfl

/-- C17: bounded drop. One recompute never lowers `current` by more than 0.1; it lowers it
only when the noise-adjusted delta is not negative and the weight is not positive, and in
every other case `current` strictly increases. A single rise has no upper bound: for every
bound there is a temperature from which one recompute rises by more. -/
theorem heatpot_evaluate_timer_bounded_drop {h : heatpot_h} (p : heatpot_t h) (noise : ℚ)
    (when : Nat) :
    p.current - 1 / 10 ≤ (heatpot_evaluate_timer_body p noise when).p.current ∧
      ((heatpot_evaluate_timer_body p noise when).p.current < p.current →
        0 ≤ p.current - p.ambiant + noise ∧ ∑ i, p.tally i ≤ 0) ∧
      (¬ (0 ≤ p.current - p.ambiant + noise ∧ ∑ i, p.tally i ≤ 0) →
        p.current < (heatpot_evaluate_timer_body p noise when).p.current) ∧
      ∀ B : ℚ, ∃ c : ℚ,
        B < (heatpot_evaluate_timer_body ({ p with current := c } : heatpot_t h) noise
          when).p.current - c := by
  have hcases : (0 ≤ p.current - p.ambiant + noise ∧ ∑ i, p.tally i ≤ 0) ∨
      p.current < (heatpot_evaluate_timer_body p noise when).p.current := by
    rw [heatpot_body_current]
    split_ifs with h1 h2
    · right; linarith
    · right; linarith
    · left; exact ⟨not_lt.mp h1, not_lt.mp h2⟩
  refine ⟨heatpot_body_drop p noise when, fun hlow => ?_, fun hn => ?_, fun B => ?_⟩
  · rcases hcases with hc | hc
    · exact hc
    · exact absurd hlow (not_lt.mpr (le_of_lt hc))
  · rcases hcases with hc | hc
    · exact absurd hc hn
    · exact hc
  · refine ⟨p.ambiant - noise - 10 * (|B| + 1), ?_⟩
    have habs : B ≤ |B| := le_abs_self B
    have hd : (p.ambiant - noise - 10 * (|B| + 1)) - p.ambiant + noise < 0 := by
      have : 0 ≤ |B| := abs_nonneg B
      linarith
    rw [heatpot_body_cool ({ p with current := p.ambiant - noise - 10 * (|B| + 1) } :
      heatpot_t h) noise when hd]
    show B < p.ambiant - noise - 10 * (|B| + 1) +
      -(p.ambiant - noise - 10 * (|B| + 1) - p.ambiant + noise) / 10 -
      (p.ambiant - noise - 10 * (|B| + 1))
    linarith

theorem heatpot_evaluate_timer_bounded_drop_witness :
    (heatpot_evaluate_timer_body p20 (random_noise 16) 0).p.current < p20.current ∧
      (0 ≤ p20.current - p20.ambiant + random_noise 16 ∧ ∑ i, p20.tally i ≤ 0) ∧
      ¬ (0 ≤ p10.current - p10.ambiant + random_noise 16 ∧ ∑ i, p10.tally i ≤ 0) ∧
      p10.current < (heatpot_evaluate_timer_body p10 (random_noise 16) 0).p.current := by
  have hlow : (heatpot_evaluate_timer_body p20 (random_noise 16) 0).p.current < p20.current := by
    rw [heatpot_evaluate_timer_p20]
    show (199 / 10 : ℚ) < 20
    norm_num
  have hn : random_noise 16 = 0 := by norm_num [random_noise]
  have hnot : ¬ (0 ≤ p10.current - p10.ambiant + random_noise 16 ∧ ∑ i, p10.tally i ≤ 0) := by
    intro hc
    have h1 := hc.1
    rw [hn] at h1
    have ha : p10.ambiant = 20 := rfl
    have hcur : p10.current = 10 := rfl
    rw [ha, hcur] at h1
    norm_num at h1
  exact ⟨hlow, (heatpot_evaluate_timer_bounded_drop p20 (random_noise 16) 0).2.1 hlow, hnot,
    (heatpot_evaluate_timer_bounded_drop p10 (random_noise 16) 0).2.2.1 hnot⟩

/-- C18: noise-independence above the threshold and absence of saturation. For every state
with `current - ambiant ≥ 1/2` the callback gives the same result for every value drawn from
`random()`: the new `current` is `current + 0.1` when the weight is positive and
`current - 0.1` when not. Hence with positive weight and no tally update, after `n`
recomputes `current = start + n * 0.1` for every `n` and every sequence of draws, which
exceeds every bound. -/
theorem heatpot_evaluate_timer_noise_independent {h : heatpot_h} (p : heatpot_t h)
    (when : Nat) (hd : 1 / 2 ≤ p.current - p.ambiant) :
    (∀ r, (heatpot_evaluate_timer p r when).p.current =
        p.current + (if 0 < ∑ i, p.tally i then 1 / 10 else -(1 / 10))) ∧
      (∀ r1 r2, heatpot_evaluate_timer p r1 when = heatpot_evaluate_timer p r2 when) ∧
      (0 < ∑ i, p.tally i → ∀ draws : List (Nat × Nat),
        (heatpot_recomputes p draws).current = p.current + draws.length * (1 / 10)) ∧
      (0 < ∑ i, p.tally i → ∀ B : ℚ, ∃ n : Nat, ∀ draws : List (Nat × Nat),
        draws.length = n → B < (heatpot_recomputes p draws).current) := by
  have hdel : ∀ r, ¬ (p.current - p.ambiant + random_noise r < 0) := by
    intro r
    obtain ⟨_, _, _, _, hlo, _⟩ := random_noise_bounds r
    exact not_lt.mpr (by linarith)
  have hcur : ∀ r, (heatpot_evaluate_timer p r when).p.current =
      p.current + (if 0 < ∑ i, p.tally i then 1 / 10 else -(1 / 10)) :=
    fun r => heatpot_body_warm p (random_noise r) when (not_lt.mp (hdel r))
  have hres : ∀ r, heatpot_evaluate_timer p r when =
      { p := { p with current :=
                 p.current + (if 0 < ∑ i, p.tally i then 1 / 10 else -(1 / 10)) }
        raised := [(heatpot_irq.IRQ_HEATPOT_TEMP_OUT, float_to_uint32
          ((p.current + (if 0 < ∑ i, p.tally i then 1 / 10 else -(1 / 10))) * 256))]
        ret := (when + p.cycle) % 2 ^ 64 } := by
    intro r
    rw [heatpot_evaluate_timer, heatpot_body_eq_reference]
    simp only [heatpot_evaluate_timer_reference, if_neg (hdel r), gt_iff_lt]
  refine ⟨hcur, fun r1 r2 => by rw [hres r1, hres r2], fun hw draws =>
    heatpot_recomputes_warm draws p hd hw, fun hw B => ?_⟩
  obtain ⟨n, hn⟩ := exists_nat_gt ((B - p.current) * 10)
  refine ⟨n, fun draws hlen => ?_⟩
  rw [heatpot_recomputes_warm draws p hd hw, hlen]
  linarith

theorem heatpot_evaluate_timer_noise_independent_witness :
    1 / 2 ≤ p21.current - p21.ambiant ∧ 0 < ∑ i, p21.tally i ∧
      (heatpot_evaluate_timer p21 0 0).p.current = 211 / 10 ∧
      (heatpot_recomputes p21 [(0, 0), (7, 1600000), (31, 3200000)]).current = 213 / 10 := by
  have hd : 1 / 2 ≤ p21.current - p21.ambiant := by
    show (1 / 2 : ℚ) ≤ 21 - 20
    norm_num
  have hw : 0 < ∑ i, p21.tally i := by simp [p21, p20_one]
  obtain ⟨h1, _, h3, _⟩ := heatpot_evaluate_timer_noise_independent p21 0 hd
  refine ⟨hd, hw, ?_, ?_⟩
  · rw [h1 0, if_pos hw]
    show (21 : ℚ) + 1 / 10 = 211 / 10
    norm_num
  · rw [h3 hw]
    show (21 : ℚ) + (3 : Nat) * (1 / 10) = 213 / 10
    norm_num

end Heatpot
